import Mathlib

/-!
# Verification of the genmq batch pipeline (merge / split / compile orchestration)

Shallow embedding of the merge, split and per-job compile logic of
`src/genmq.py` (class `GenMoodleQuiz` and class `Splitter`), together with the
post-render draft-marker removal transform of `render_file`.

Modelling conventions:
* An XML element tree is flattened to what the code inspects: the root's
  direct children, each carrying a tag, an attribute list and an opaque
  payload standing for its subtree.
* Python exceptions are modelled as `Except` error values: the
  index error raised by `roots[0]` on an empty input list becomes
  `MergeError.emptyInput`, the key error raised by `el.attrib` lookup on a
  question node lacking a `type` attribute becomes `keyError`, and the zero
  division reachable in `split_by_size` becomes `zeroDivision`.
* The working directory is a finite map from file name to parsed document.
* `subprocess.run` results are an oracle the embedded code may consult; the
  point of the compile-orchestration theorems is exactly that the source
  never consults it.
-/

namespace Genmq

/-- A direct child of the document root, as inspected by the merge/split code:
its tag, its attribute list and an opaque payload standing for its subtree. -/
structure Node where
  tag : String
  attrs : List (String × String)
  payload : Nat
deriving DecidableEq, Repr

/-- `el.attrib["type"]` as a partial lookup (Python raises KeyError when the
attribute is absent). -/
def attrType (n : Node) : Option String :=
  n.attrs.lookup "type"

/-- A document is the list of the root's direct children. -/
abbrev Doc := List Node

/-- Well-formed artifact: every question-tagged child carries a type
attribute, so the `el.attrib` subscript in the source cannot raise. -/
def wellFormed (d : Doc) : Prop :=
  ∀ n ∈ d, n.tag = "question" → (attrType n).isSome

instance (d : Doc) : Decidable (wellFormed d) := by
  unfold wellFormed; infer_instance

/-- Errors of the merge path: `emptyInput` models the uncaught index error of
`roots[0]` on an empty file list, `keyError` the attribute subscript on an
untyped question, `fileNotFound` a parse of a missing file, `zeroDivision`
the division by zero reachable in `split_by_size`. -/
inductive XmlError where
  | emptyInput
  | keyError
  | fileNotFound
  | zeroDivision
deriving DecidableEq, Repr

/-- The inner loop of `merge_xml`: `for el in r: if el.tag == "question" and
el.attrib["type"] != "category": base.append(el)`. -/
def appendEls (acc : Doc) : Doc → Except XmlError Doc
  | [] => .ok acc
  | el :: els =>
    if el.tag = "question" then
      match attrType el with
      | none => .error .keyError
      | some t =>
        if t ≠ "category" then appendEls (acc ++ [el]) els
        else appendEls acc els
    else appendEls acc els

/-- The outer loop of `merge_xml` over `roots[1:]`. -/
def mergeRest (acc : Doc) : List Doc → Except XmlError Doc
  | [] => .ok acc
  | r :: rs =>
    match appendEls acc r with
    | .error e => .error e
    | .ok acc' => mergeRest acc' rs

/-- `GenMoodleQuiz.merge_xml` on already-parsed documents: the first root is
the base, question nodes of later roots whose type attribute is not
"category" are appended to it in input order. An empty input fails at
`roots[0]`. -/
def merge_xml : List Doc → Except XmlError Doc
  | [] => .error .emptyInput
  | base :: rest => mergeRest base rest

/-- Item-kind node: tag is "question" (category markers included). -/
def isItem (n : Node) : Bool := n.tag == "question"

/-- Category-marker node: a question whose type attribute is "category". -/
def isCat (n : Node) : Bool := n.tag == "question" && attrType n == some "category"

/-- A node `merge_xml` copies out of a non-base artifact: a question whose
type attribute is present and is not "category". -/
def isKeptItem (n : Node) : Bool :=
  n.tag == "question" && !(attrType n == some "category")

/-- The nodes of a document that `merge_xml` copies out of a non-base
artifact, in document order. -/
def itemFilter (d : Doc) : Doc := d.filter isKeptItem

/-- Number of item-kind (question-tagged) nodes of a document, category
markers included. -/
def itemCount (d : Doc) : Nat := (d.filter isItem).length

/-- Number of category-marker nodes of a document. -/
def catCount (d : Doc) : Nat := (d.filter isCat).length

/-- Output chunk file name, `f"{stem}-{fidx}.xml"`. -/
def chunkName (stem : String) (fidx : Nat) : String :=
  stem ++ "-" ++ toString fidx ++ ".xml"

/-- `Splitter.read_xml_file`: walks the question children in document order,
collecting every non-category question into `q_list` and removing it from the
root; header children and category markers stay in the root. Returns
(remaining root children, extracted question list). -/
def read_xml_file : Doc → Except XmlError (Doc × Doc)
  | [] => .ok ([], [])
  | n :: rest =>
    if n.tag = "question" then
      match attrType n with
      | none => .error .keyError
      | some t =>
        if t ≠ "category" then
          match read_xml_file rest with
          | .error e => .error e
          | .ok (r, q) => .ok (r, n :: q)
        else
          match read_xml_file rest with
          | .error e => .error e
          | .ok (r, q) => .ok (n :: r, q)
    else
      match read_xml_file rest with
      | .error e => .error e
      | .ok (r, q) => .ok (n :: r, q)

/-- The loop of `Splitter.split_q_per_file` over `q_list`, with state
(working root, qidx, fidx, files written so far). A chunk is written when
`qidx >= q_per_file`; the loop breaks when `fidx > n_files` — a check made
only after any write of this iteration; after a normal loop exit a final
partial chunk is written when `qidx > 0 and fidx <= n_files`. -/
def split_loop (stem : String) (root : Doc) (k n : Nat) :
    List Node → Doc → Nat → Nat → List (String × Doc) → List (String × Doc)
  | [], working, qidx, fidx, acc =>
    if 0 < qidx ∧ fidx ≤ n then acc ++ [(chunkName stem fidx, working)] else acc
  | q :: qs, working, qidx, fidx, acc =>
    let working' := working ++ [q]
    let qidx' := qidx + 1
    if k ≤ qidx' then
      let acc' := acc ++ [(chunkName stem fidx, working')]
      if n < fidx + 1 then acc'
      else split_loop stem root k n qs root 0 (fidx + 1) acc'
    else
      if n < fidx then acc
      else split_loop stem root k n qs working' qidx' fidx acc

/-- `Splitter.split_q_per_file`. The first component is the ordered list of
(file name, document) pairs written by `write_xml_file`; the second is the
function's Python return value, which is `None` — it returns no truncation
count or any other information. -/
def split_q_per_file (stem : String) (root : Doc) (q_list : List Node)
    (q_per_file n_files : Nat) : List (String × Doc) × Option Nat :=
  (split_loop stem root q_per_file n_files q_list root 0 1 [], none)

/-- `Splitter.split_by_number`. -/
def split_by_number (stem : String) (d : Doc) (number_q : Nat)
    (number_f : Nat) : Except XmlError (List (String × Doc) × Option Nat) :=
  match read_xml_file d with
  | .error e => .error e
  | .ok (root, q_list) => .ok (split_q_per_file stem root q_list number_q number_f)

/-- `Splitter.split_by_size`. `filesize` is the byte size of the input file
(`stat().st_size`); `maxfilesize_mb` is converted to bytes by `* 2**20`;
`max_n_files = ceil(filesize / maxfilesize)` (exact rational ceiling,
modelling `math.ceil` of the float quotient); the caller cap clamps only
when given and positive; but `q_per_file = floor(total / max_n_files)` uses
the unclamped `max_n_files`. The divisions raise `zeroDivision` when their
divisor is zero, as in Python. -/
def split_by_size (stem : String) (d : Doc) (filesize : Nat)
    (maxfilesize_mb : Nat) (nfiles : Option Nat) :
    Except XmlError (List (String × Doc) × Option Nat) :=
  match read_xml_file d with
  | .error e => .error e
  | .ok (root, q_list) =>
    let maxfilesize := maxfilesize_mb * 2 ^ 20
    if maxfilesize = 0 then .error .zeroDivision
    else
      let max_n_files := (filesize + maxfilesize - 1) / maxfilesize
      let n_files :=
        match nfiles with
        | some nf => if 0 < nf then min max_n_files nf else max_n_files
        | none => max_n_files
      if max_n_files = 0 then .error .zeroDivision
      else
        let q_per_file := q_list.length / max_n_files
        .ok (split_q_per_file stem root q_list q_per_file n_files)

/-- Reference chunking (for the refinement statements): consecutive groups of
`k` in order, the last group possibly shorter. For `k = 0` this definition
degenerates to groups of one, exactly as the source loop does. -/
def chunkify (k : Nat) : List Node → List (List Node)
  | [] => []
  | q :: qs => (q :: qs.take (k - 1)) :: chunkify k (qs.drop (k - 1))
termination_by l => l.length
decreasing_by simp; omega

/-- Reference naming of chunks `fidx, fidx+1, ...`, each built on a copy of
the template root. -/
def nameChunks (stem : String) (root : Doc) : Nat → List (List Node) → List (String × Doc)
  | _, [] => []
  | fidx, g :: gs => (chunkName stem fidx, root ++ g) :: nameChunks stem root (fidx + 1) gs

/-- Ceiling division on naturals. -/
def ceilDiv (a b : Nat) : Nat := (a + b - 1) / b

/-- Example fixture: a data-bearing question node. -/
def qnode (i : Nat) : Node := ⟨"question", [("type", "essay")], i⟩

/-- Example fixture: a category-marker node. -/
def catnode (i : Nat) : Node := ⟨"question", [("type", "category")], i⟩

/-- The working directory, as a finite map from file name to parsed document
(in merge mode the relevant files are exactly the xml files the glob finds). -/
abbrev FS := List (String × Doc)

/-- Writing a file: replaces the content under an existing name, else adds
the file. -/
def fsWrite (fs : FS) (name : String) (d : Doc) : FS :=
  if fs.any (fun p => p.1 == name) then
    fs.map (fun p => if p.1 == name then (name, d) else p)
  else fs ++ [(name, d)]

/-- `[ET.parse(f).getroot() for f in xml_files]`: parse every input path,
failing on a missing file. -/
def parseAll (fs : FS) : List String → Except XmlError (List Doc)
  | [] => .ok []
  | f :: rest =>
    match fs.lookup f with
    | none => .error .fileNotFound
    | some d =>
      match parseAll fs rest with
      | .error e => .error e
      | .ok ds => .ok (d :: ds)

/-- `GenMoodleQuiz.merge_xml` at filesystem level: parse every input path,
merge the roots in memory, write `xmlfilename + ".xml"`, then delete every
input path when `delete_temps`. On failure nothing has been written. -/
def merge_xml_fs (fs : FS) (xmlfilename : String) (xml_files : List String)
    (delete_temps : Bool) : Except XmlError FS :=
  match parseAll fs xml_files with
  | .error e => .error e
  | .ok roots =>
    match merge_xml roots with
    | .error e => .error e
    | .ok merged =>
      let fs1 := fsWrite fs (xmlfilename ++ ".xml") merged
      .ok (if delete_temps then fs1.filter (fun p => !(xml_files.contains p.1))
           else fs1)

/-- `args.mergexml.rsplit(".", 1)[0]`: everything before the last dot, or the
whole name when it has no dot. -/
def stripExt (s : String) : String :=
  let parts := s.toList.splitOn '.'
  if parts.length ≤ 1 then s
  else String.mk (List.intercalate ['.'] parts.dropLast)

/-- Merge mode of `cli`: the input list is `glob.glob("*.xml")` — every xml
file already in the working directory, gathered before the output is
written — the output name is the given name with its extension stripped plus
".xml", and `delete_temps` keeps its default `True` unless `-d` was passed. -/
def cli_merge_mode (fs : FS) (mergexml : String) (delete_temps : Bool) :
    Except XmlError FS :=
  merge_xml_fs fs (stripExt mergexml) (fs.map (fun p => p.1)) delete_temps

/-- The outcome of one `subprocess.run` invocation: the external process's
exit status and the files it left in the working directory. `compile_files`
is given these as an oracle; the theorems show it never consults them. -/
structure SubprocRes where
  returncode : Int
  created : List String

/-- `GenMoodleQuiz.compile_files`: one pdflatex pass, or — with the pythontex
flag — pdflatex, pythontex, pdflatex. `oracle i` is the result of the i-th
invocation. Returns (number of invocations made, working directory contents
after the passes and any log writes, `self.tempxmlfiles` after the final
unconditional append of `tmpfile + "-moodle.xml"`). No exit status is
inspected and no existence check is made before the append. -/
def compile_files (oracle : Nat → SubprocRes) (pythontex logfile : Bool)
    (tmpfile : String) (cwd : List String) (tempxmlfiles : List String) :
    Nat × List String × List String :=
  let r1 := oracle 0
  let cwd1 := cwd ++ r1.created
  let cwd1 := if logfile then cwd1 ++ ["genmq.log"] else cwd1
  if pythontex then
    let r2 := oracle 1
    let cwd2 := cwd1 ++ r2.created
    let cwd2 := if logfile then cwd2 ++ ["gq_pythontex.log"] else cwd2
    let r3 := oracle 2
    let cwd3 := cwd2 ++ r3.created
    let cwd3 := if logfile then cwd3 ++ ["gq_post_pythontex.log"] else cwd3
    (3, cwd3, tempxmlfiles ++ [tmpfile ++ "-moodle.xml"])
  else
    (1, cwd1, tempxmlfiles ++ [tmpfile ++ "-moodle.xml"])

/-- The Python whitespace class (the characters matched by the regex escape
for whitespace): space, tab, newline, vertical tab, form feed, carriage
return. -/
def isSpaceChar (c : Char) : Bool :=
  c.toNat = 32 || c.toNat = 9 || c.toNat = 10 ||
  c.toNat = 11 || c.toNat = 12 || c.toNat = 13

/-- The regex non-whitespace class. -/
def nonspace (c : Char) : Bool := !isSpaceChar c

/-- The literal line head of the pattern. -/
def usepackageChars : List Char := "\\usepackage".toList

/-- The draft marker. -/
def draftChars : List Char := "draft".toList

/-- The literal line tail of the pattern. -/
def moodleSuffix : List Char := "{moodle}".toList

/-- The empty-options inclusion replaced by the second transform stage. -/
def patChars : List Char := "\\usepackage[]{moodle}".toList

/-- Its replacement. -/
def repChars : List Char := "\\usepackage{moodle}".toList

/-- `endsWithL suf l`: `l` ends with the literal `suf`. -/
def endsWithL (suf l : List Char) : Bool :=
  decide (suf.length ≤ l.length) && (l.drop (l.length - suf.length) == suf)

/-- A possible position of the rewritten draft marker inside `rest` (the line
after the 11-character literal head): at least one character before it (the
first non-space group is nonempty) and, after it, at least one character plus
the 8-character literal tail. -/
def validDraftIdx (rest : List Char) (i : Nat) : Bool :=
  decide (1 ≤ i) && ((rest.drop i).take 5 == draftChars) &&
    decide (i + 14 ≤ rest.length)

/-- Scan positions n-1, n-2, ..., 0 and return the first valid one — the
greatest valid position, which is the one the regex engine's greedy first
group selects. -/
def greedyAux (rest : List Char) : Nat → Option Nat
  | 0 => none
  | i + 1 => if validDraftIdx rest i then some i else greedyAux rest i

/-- The draft position chosen by the leftmost-then-greedy regex engine. -/
def draftIdx (rest : List Char) : Option Nat := greedyAux rest rest.length

/-- One rewrite of a single line for the multiline-anchored draft pattern of
`render_file` (genmq.py:262-263). A line matches iff it is wholly non-space,
starts with the literal head, ends with the literal tail, and a valid draft
position exists; both anchors force the match to cover the whole line, and
since neither the non-space class nor the literals can match a newline, no
match crosses lines. On a match the greedily-chosen draft marker is dropped;
otherwise the line is unchanged. -/
def draftSub (l : List Char) : List Char :=
  if l.take 11 == usepackageChars && l.all nonspace &&
      endsWithL moodleSuffix (l.drop 11) then
    match draftIdx (l.drop 11) with
    | some i => l.take 11 ++ (l.drop 11).take i ++ (l.drop 11).drop (i + 5)
    | none => l
  else l

/-- The scan of Python `str.replace`, fuelled by an upper bound on the
remaining length so the recursion is structural: at each position, either the
fixed 21-character empty-options inclusion starts here — replace it and jump
past it — or keep the character and move on. -/
def replaceAllAux : Nat → List Char → List Char
  | 0, l => l
  | _ + 1, [] => []
  | fuel + 1, c :: rest =>
    if (c :: rest).take 21 == patChars then
      repChars ++ replaceAllAux fuel ((c :: rest).drop 21)
    else c :: replaceAllAux fuel rest

/-- Python `str.replace` of the fixed empty-options inclusion by its
bracketless form (genmq.py:265): leftmost, non-overlapping, global. -/
def replaceAllL (l : List Char) : List Char := replaceAllAux l.length l

/-- The lines of a text, split at each newline. -/
def splitLines : List Char → List (List Char)
  | [] => [[]]
  | c :: rest =>
    if c = '\n' then [] :: splitLines rest
    else
      match splitLines rest with
      | [] => [[c]]
      | l :: ls => (c :: l) :: ls

/-- Reassemble lines with newlines. -/
def joinLines : List (List Char) → List Char
  | [] => []
  | [l] => l
  | l :: ls => l ++ '\n' :: joinLines ls

/-- The post-render draft-marker removal transform of `render_file`
(genmq.py:261-265): the multiline regex substitution — equivalently, the
per-line rewrite `draftSub`, since no match can cross a newline — followed by
the global string replacement of the degenerate empty-options inclusion. -/
def render_transform (doc : List Char) : List Char :=
  replaceAllL (joinLines ((splitLines doc).map draftSub))

/-- A character admissible in the option list of the canonical inclusion
line: a letter, a digit or a comma. -/
def optChar (c : Char) : Bool :=
  (decide (97 ≤ c.toNat) && decide (c.toNat ≤ 122)) ||
  (decide (65 ≤ c.toNat) && decide (c.toNat ≤ 90)) ||
  (decide (48 ≤ c.toNat) && decide (c.toNat ≤ 57)) ||
  decide (c.toNat = 44)

/-- The canonical draft-carrying package-inclusion line, with option text o1
before and o2 after the draft marker. -/
def inclLine (o1 o2 : List Char) : List Char :=
  "\\usepackage[".toList ++ o1 ++ draftChars ++ o2 ++ "]{moodle}".toList

/-- The same line with its draft marker removed. -/
def cleanLine (s : List Char) : List Char :=
  "\\usepackage[".toList ++ s ++ "]{moodle}".toList

/-- A line the transform leaves alone: free of the draft marker, free of the
empty-options inclusion, and single-line. -/
def inertLine (l : List Char) : Prop :=
  ¬ draftChars <:+: l ∧ ¬ patChars <:+: l ∧ '\n' ∉ l

theorem appendEls_ok (els : Doc) (hwf : wellFormed els) :
    ∀ acc, appendEls acc els = .ok (acc ++ itemFilter els) := by
  induction els with
  | nil => intro acc; simp [appendEls, itemFilter]
  | cons el els ih =>
    intro acc
    have hel : el.tag = "question" → (attrType el).isSome := hwf el (by simp)
    have hwf' : wellFormed els := fun n hn => hwf n (by simp [hn])
    by_cases hq : el.tag = "question"
    · rcases Option.isSome_iff_exists.mp (hel hq) with ⟨t, ht⟩
      by_cases hc : t = "category"
      · have hk : isKeptItem el = false := by simp [isKeptItem, hq, ht, hc]
        simp [appendEls, hq, ht, hc, ih hwf', itemFilter, List.filter_cons, hk]
      · have hk : isKeptItem el = true := by simp [isKeptItem, hq, ht, hc]
        simp only [appendEls, if_pos hq, ht, ne_eq, hc, not_false_iff, if_true,
          ih hwf']
        simp [itemFilter, List.filter_cons, hk]
    · have hk : isKeptItem el = false := by simp [isKeptItem, hq]
      simp [appendEls, hq, ih hwf', itemFilter, List.filter_cons, hk]

theorem mergeRest_ok (rs : List Doc) (hwf : ∀ d ∈ rs, wellFormed d) :
    ∀ acc, mergeRest acc rs = .ok (acc ++ (rs.map itemFilter).flatten) := by
  induction rs with
  | nil => intro acc; simp [mergeRest]
  | cons r rs ih =>
    intro acc
    have hr : wellFormed r := hwf r (by simp)
    have hrs : ∀ d ∈ rs, wellFormed d := fun d hd => hwf d (by simp [hd])
    simp [mergeRest, appendEls_ok r hr, ih hrs, List.append_assoc]

theorem itemCount_append (a b : Doc) :
    itemCount (a ++ b) = itemCount a + itemCount b := by
  simp [itemCount, List.filter_append]

theorem catCount_le_itemCount (d : Doc) : catCount d ≤ itemCount d := by
  induction d with
  | nil => simp [catCount, itemCount]
  | cons n d ih =>
    simp only [catCount, itemCount, List.filter_cons] at *
    cases hq : isItem n
    · simp only [isCat, isItem, Bool.false_and] at *
      simp [hq]
      omega
    · cases hc : (attrType n == some "category")
      · have : isCat n = false := by
          simp [isCat, isItem] at hq ⊢
          simp [hq]
          exact ne_of_beq_false hc
        simp only [this, hq, if_true, if_false, Bool.false_eq_true,
          List.length_cons]
        omega
      · have : isCat n = true := by
          simp [isCat, isItem] at hq ⊢
          simp [hq]
          exact eq_of_beq hc
        simp only [this, hq, if_true, List.length_cons]
        omega

theorem itemCount_itemFilter (d : Doc) :
    itemCount (itemFilter d) = itemCount d - catCount d := by
  induction d with
  | nil => rfl
  | cons n d ih =>
    have hle := catCount_le_itemCount d
    simp only [catCount, itemCount, itemFilter, List.filter_cons] at *
    cases hq : isItem n
    · have h1 : isCat n = false := by simp [isCat, isItem] at hq ⊢; simp [hq]
      have h2 : isKeptItem n = false := by
        simp [isKeptItem, isItem] at hq ⊢; simp [hq]
      simp only [hq, h1, h2, Bool.false_eq_true, if_false]
      omega
    · cases hc : (attrType n == some "category")
      · have h1 : isCat n = false := by
          simp [isCat, isItem] at hq ⊢
          simp [hq]
          exact ne_of_beq_false hc
        have h2 : isKeptItem n = true := by
          simp [isKeptItem, isItem] at hq ⊢
          simp [hq]
          exact ne_of_beq_false hc
        simp only [hq, h1, h2, Bool.false_eq_true, if_false, if_true,
          List.filter_cons, List.length_cons]
        omega
      · have h1 : isCat n = true := by
          simp [isCat, isItem] at hq ⊢
          simp [hq]
          exact eq_of_beq hc
        have h2 : isKeptItem n = false := by
          simp [isKeptItem, isItem] at hq ⊢
          simp [hq]
          exact eq_of_beq hc
        simp only [hq, h1, h2, Bool.false_eq_true, if_false, if_true,
          List.length_cons]
        omega

theorem itemCount_flatten (ds : List Doc) :
    itemCount ds.flatten = (ds.map itemCount).sum := by
  induction ds with
  | nil => simp [itemCount]
  | cons d ds ih => simp [itemCount_append, ih]

/-- **C1.** For a non-empty sequence of well-formed artifacts, the merge
output is exactly the base artifact's children followed, in input order and
in document order within each artifact, by every question-tagged node of each
later artifact whose type attribute is not "category"; consequently the
output item count is the sum of the per-artifact item counts minus the
category markers of the non-base artifacts. -/
theorem merge_output_exact (base : Doc) (rest : List Doc)
    (hwf : ∀ d ∈ base :: rest, wellFormed d) :
    merge_xml (base :: rest) = .ok (base ++ (rest.map itemFilter).flatten) ∧
    itemCount (base ++ (rest.map itemFilter).flatten) =
      ((base :: rest).map itemCount).sum - (rest.map catCount).sum := by
  have hrest : ∀ d ∈ rest, wellFormed d := fun d hd => hwf d (by simp [hd])
  refine ⟨by simp [merge_xml, mergeRest_ok rest hrest], ?_⟩
  rw [itemCount_append, itemCount_flatten]
  have hsum : ∀ ds : List Doc,
      ((ds.map itemFilter).map itemCount).sum =
        (ds.map itemCount).sum - (ds.map catCount).sum ∧
      (ds.map catCount).sum ≤ (ds.map itemCount).sum := by
    intro ds
    induction ds with
    | nil => simp
    | cons d ds ih =>
      have hle : catCount d ≤ itemCount d := catCount_le_itemCount d
      constructor
      · simp only [List.map_cons, List.sum_cons, itemCount_itemFilter, ih.1]
        omega
      · simp only [List.map_cons, List.sum_cons]
        omega
  rw [(hsum rest).1]
  have := (hsum rest).2
  simp only [List.map_cons, List.sum_cons]
  omega

/-- Witness for `merge_output_exact`: a concrete three-artifact merge. -/
theorem merge_output_exact_witness :
    merge_xml
        [[⟨"question", [("type", "category")], 0⟩,
          ⟨"question", [("type", "essay")], 1⟩],
         [⟨"question", [("type", "category")], 2⟩,
          ⟨"question", [("type", "essay")], 3⟩],
         [⟨"question", [("type", "category")], 4⟩,
          ⟨"question", [("type", "numerical")], 5⟩]] =
      .ok [⟨"question", [("type", "category")], 0⟩,
           ⟨"question", [("type", "essay")], 1⟩,
           ⟨"question", [("type", "essay")], 3⟩,
           ⟨"question", [("type", "numerical")], 5⟩] := by
  have h := merge_output_exact
    [⟨"question", [("type", "category")], 0⟩, ⟨"question", [("type", "essay")], 1⟩]
    [[⟨"question", [("type", "category")], 2⟩, ⟨"question", [("type", "essay")], 3⟩],
     [⟨"question", [("type", "category")], 4⟩, ⟨"question", [("type", "numerical")], 5⟩]]
    (by decide)
  rw [h.1]
  rfl

theorem chunkify_nil (k : Nat) : chunkify k [] = [] := by
  rw [chunkify]

theorem chunkify_small (k : Nat) (q : Node) (qs : List Node)
    (hlen : (q :: qs).length ≤ k) : chunkify k (q :: qs) = [q :: qs] := by
  rw [chunkify]
  have h1 : qs.length ≤ k - 1 := by simp at hlen; omega
  rw [List.take_of_length_le h1, List.drop_eq_nil_of_le h1, chunkify_nil]

theorem chunkify_full (k : Nat) (hk : 1 ≤ k) (g rest : List Node)
    (hg : g.length = k) : chunkify k (g ++ rest) = g :: chunkify k rest := by
  match g, hg with
  | [], hg => simp at hg; omega
  | b :: bs, hg =>
    rw [List.cons_append, chunkify]
    have hbs : bs.length = k - 1 := by simp at hg; omega
    rw [List.take_left' hbs, List.drop_left' hbs]

theorem chunkify_flatten (k : Nat) (l : List Node) :
    (chunkify k l).flatten = l := by
  induction l using chunkify.induct k with
  | case1 => rw [chunkify_nil]; rfl
  | case2 q qs ih =>
    rw [chunkify]
    simp only [List.flatten_cons, ih, List.cons_append, List.take_append_drop]

theorem chunkify_eq_nil_iff (k : Nat) (l : List Node) :
    chunkify k l = [] ↔ l = [] := by
  cases l with
  | nil => simp [chunkify_nil]
  | cons q qs => rw [chunkify]; simp

theorem ceilDiv_step (m k : Nat) (hk : 1 ≤ k) (hm : 1 ≤ m) :
    ceilDiv m k = 1 + ceilDiv (m - k) k := by
  unfold ceilDiv
  have e1 : m + k - 1 = (m - 1) + k := by omega
  rw [e1, Nat.add_div_right _ (by omega)]
  rcases le_or_lt m k with h | h
  · have h0 : m - k = 0 := by omega
    rw [h0, Nat.div_eq_of_lt (by omega : m - 1 < k),
      Nat.div_eq_of_lt (by omega : 0 + k - 1 < k)]
  · have e2 : m - k + k - 1 = m - 1 - k + k := by omega
    rw [e2, Nat.add_div_right _ (by omega)]
    have e4 : (m - 1) / k = (m - 1 - k) / k + 1 := by
      have e3 : m - 1 = m - 1 - k + k := by omega
      nth_rewrite 1 [e3]
      rw [Nat.add_div_right _ (by omega)]
    omega

theorem chunkify_length (k : Nat) (hk : 1 ≤ k) (l : List Node) :
    (chunkify k l).length = ceilDiv l.length k := by
  induction l using chunkify.induct k with
  | case1 =>
    rw [chunkify_nil]
    simp only [List.length_nil, ceilDiv]
    exact (Nat.div_eq_of_lt (by omega)).symm
  | case2 q qs ih =>
    rw [chunkify]
    simp only [List.length_cons, ih]
    rw [ceilDiv_step (qs.length + 1) k hk (by omega)]
    have e1 : qs.length + 1 - k = qs.length - (k - 1) := by omega
    simp only [List.length_drop, e1]
    omega

theorem chunkify_get_length (k : Nat) (hk : 1 ≤ k) (l : List Node) :
    ∀ i g, (chunkify k l)[i]? = some g → i + 1 < (chunkify k l).length →
      g.length = k := by
  induction l using chunkify.induct k with
  | case1 => intro i g hg h; rw [chunkify_nil] at h; simp at h
  | case2 q qs ih =>
    intro i g hg h
    rw [chunkify] at hg h
    match i with
    | 0 =>
      simp only [List.getElem?_cons_zero, Option.some.injEq] at hg
      simp only [List.length_cons] at h
      have hne : chunkify k (qs.drop (k - 1)) ≠ [] := by
        intro hnil
        rw [hnil] at h
        simp at h
      have hd : qs.drop (k - 1) ≠ [] := fun hnil =>
        hne (by rw [hnil, chunkify_nil])
      have hlen : k - 1 ≤ qs.length := by
        by_contra hlt
        exact hd (List.drop_eq_nil_of_le (by omega))
      rw [← hg]
      simp [List.length_take, Nat.min_eq_left hlen]
      omega
    | Nat.succ j =>
      simp only [List.getElem?_cons_succ] at hg
      simp only [List.length_cons, Nat.succ_lt_succ_iff] at h
      exact ih j g hg h

theorem chunkify_take_flatten (k : Nat) (hk : 1 ≤ k) (l : List Node) :
    ∀ n, n ≤ (chunkify k l).length →
      (((chunkify k l).take n).flatten = l.take (n * k)) := by
  induction l using chunkify.induct k with
  | case1 => intro n hn; rw [chunkify_nil] at hn ⊢; simp at hn; simp [hn]
  | case2 q qs ih =>
    intro n hn
    rw [chunkify] at hn ⊢
    match n with
    | 0 => simp
    | Nat.succ m =>
      simp only [List.length_cons, Nat.succ_le_succ_iff] at hn
      simp only [List.take_succ_cons, List.flatten_cons, ih m hn]
      have e1 : (m + 1) * k = (k - 1 + m * k) + 1 := by
        have : 1 ≤ k := hk
        calc (m + 1) * k = m * k + k := by ring
        _ = (k - 1 + m * k) + 1 := by omega
      rw [e1, List.take_succ_cons, List.take_add]
      simp

theorem nameChunks_length (stem : String) (root : Doc) :
    ∀ f gs, (nameChunks stem root f gs).length = gs.length := by
  intro f gs
  induction gs generalizing f with
  | nil => rfl
  | cons g gs ih => simp [nameChunks, ih]

theorem nameChunks_get (stem : String) (root : Doc) :
    ∀ gs f i, (nameChunks stem root f gs)[i]? =
      (gs[i]?).map (fun g => (chunkName stem (f + i), root ++ g)) := by
  intro gs
  induction gs with
  | nil => intro f i; simp [nameChunks]
  | cons g gs ih =>
    intro f i
    match i with
    | 0 => simp [nameChunks]
    | Nat.succ j =>
      simp only [nameChunks, List.getElem?_cons_succ, ih (f + 1) j]
      have e : f + 1 + j = f + (j + 1) := by omega
      rw [e]

theorem nameChunks_items (stem : String) (root : Doc) :
    ∀ gs f, (nameChunks stem root f gs).map (fun c => c.2.drop root.length) = gs := by
  intro gs
  induction gs with
  | nil => intro f; rfl
  | cons g gs ih => intro f; simp [nameChunks, ih, List.drop_left]

theorem split_loop_spec (stem : String) (root : Doc) (k n : Nat) (hk : 1 ≤ k) :
    ∀ qs buf fidx acc, buf.length < k → 1 ≤ fidx → fidx ≤ n →
      split_loop stem root k n qs (root ++ buf) buf.length fidx acc =
        acc ++ nameChunks stem root fidx
          ((chunkify k (buf ++ qs)).take (n + 1 - fidx)) := by
  intro qs
  induction qs with
  | nil =>
    intro buf fidx acc hbuf hf1 hfn
    rw [split_loop]
    cases buf with
    | nil => simp [chunkify_nil, nameChunks]
    | cons b bs =>
      rw [List.append_nil, chunkify_small k b bs (by omega)]
      have e1 : n + 1 - fidx = (n - fidx) + 1 := by omega
      rw [e1, List.take_succ_cons, List.take_nil]
      simp [hfn, nameChunks]
  | cons q qs ih =>
    intro buf fidx acc hbuf hf1 hfn
    rw [split_loop]
    by_cases hfull : k ≤ buf.length + 1
    · have hlen : (buf ++ [q]).length = k := by simp; omega
      have hc : chunkify k (buf ++ q :: qs) = (buf ++ [q]) :: chunkify k qs := by
        have : buf ++ q :: qs = (buf ++ [q]) ++ qs := by simp
        rw [this, chunkify_full k hk _ _ hlen]
      simp only [hfull, if_true]
      by_cases hlast : n < fidx + 1
      · have e1 : n + 1 - fidx = 1 := by omega
        simp only [hlast, if_true, hc, e1, List.take_succ_cons, List.take_zero]
        simp [nameChunks]
      · have e1 : n + 1 - fidx = (n + 1 - (fidx + 1)) + 1 := by omega
        simp only [hlast, if_false]
        have hrec := ih [] (fidx + 1)
          (acc ++ [(chunkName stem fidx, (root ++ buf) ++ [q])])
          (by simp only [List.length_nil]; omega) (by omega) (by omega)
        simp only [List.append_nil, List.length_nil, List.nil_append] at hrec
        rw [hrec, hc, e1, List.take_succ_cons]
        simp [nameChunks, List.append_assoc]
    · have hnb : ¬ n < fidx := by omega
      simp only [hfull, if_false, hnb]
      have hrec := ih (buf ++ [q]) fidx acc (by simp; omega) hf1 hfn
      have e2 : (buf ++ [q]).length = buf.length + 1 := by simp
      rw [e2, ← List.append_assoc] at hrec
      rw [hrec]
      have e3 : (buf ++ [q]) ++ qs = buf ++ q :: qs := by simp
      rw [e3]

theorem split_q_per_file_spec (stem : String) (root : Doc) (q : List Node)
    (k n : Nat) (hk : 1 ≤ k) (hn : 1 ≤ n) :
    (split_q_per_file stem root q k n).1 =
      nameChunks stem root 1 ((chunkify k q).take n) := by
  unfold split_q_per_file
  have h := split_loop_spec stem root k n hk q [] 1 []
    (by simp only [List.length_nil]; omega) (by omega) hn
  simpa using h

/-- **C2, counterexample.** With `maxFiles = 0`, `itemsPerFile = 1` and a
single item, count-mode split still writes one chunk — the file-cap check
runs only after the write of the current iteration — whereas the claim's
chunk count `min(ceil(1/1), maxFiles) = 0` demands none. -/
theorem splitByCount_cap_zero_counterexample :
    ((split_q_per_file "s" [] [qnode 0] 1 0).1).length = 1 ∧
      min (ceilDiv 1 1) 0 = 0 := by
  exact ⟨rfl, rfl⟩

/-- **C2 (amended).** For `itemsPerFile ≥ 1` and `maxFiles ≥ 1`, count-mode
split produces `min(ceil(totalItems / itemsPerFile), maxFiles)` chunks, every
chunk but possibly the last carries exactly `itemsPerFile` items on top of
the template, and when `maxFiles` is not limiting the chunks' items
concatenate back to the original item sequence. (The `maxFiles ≥ 1`
restriction is forced: with `maxFiles = 0` and `itemsPerFile = 1` the first
iteration writes a chunk before the per-iteration cap check runs, violating
the cap; with `itemsPerFile ≥ 2` and `maxFiles = 0` the check breaks the loop
before any write.) -/
theorem splitByCount_distribution (stem : String) (root : Doc) (q : List Node)
    (k n : Nat) (hk : 1 ≤ k) (hn : 1 ≤ n) :
    ((split_q_per_file stem root q k n).1).length = min (ceilDiv q.length k) n ∧
    (∀ i c, ((split_q_per_file stem root q k n).1)[i]? = some c →
      i + 1 < ((split_q_per_file stem root q k n).1).length →
        (c.2).length = root.length + k) ∧
    (ceilDiv q.length k ≤ n →
      (((split_q_per_file stem root q k n).1).map
        (fun c => c.2.drop root.length)).flatten = q) := by
  have hw := split_q_per_file_spec stem root q k n hk hn
  refine ⟨?_, ?_, ?_⟩
  · rw [hw, nameChunks_length, List.length_take, chunkify_length k hk]
    omega
  · intro i c hc hi
    rw [hw] at hc hi
    rw [nameChunks_get] at hc
    rw [nameChunks_length, List.length_take, chunkify_length k hk] at hi
    cases hg : ((chunkify k q).take n)[i]? with
    | none => rw [hg] at hc; simp at hc
    | some g =>
      rw [hg] at hc
      simp only [Option.map_some'] at hc
      have hg2 : (chunkify k q)[i]? = some g := by
        rw [List.getElem?_take] at hg
        by_cases hin : i < n
        · simpa [hin] using hg
        · simp [hin] at hg
      have hglen : g.length = k :=
        chunkify_get_length k hk q i g hg2
          (by rw [chunkify_length k hk]; omega)
      injection hc with hc2
      rw [← hc2]
      simp [hglen]
  · intro hle
    rw [hw]
    have htake : (chunkify k q).take n = chunkify k q :=
      List.take_of_length_le (by rw [chunkify_length k hk]; omega)
    rw [htake, nameChunks_items, chunkify_flatten]

/-- Witness for `splitByCount_distribution`: three items, two per file, cap
five. -/
theorem splitByCount_distribution_witness :
    ((split_q_per_file "s" [catnode 9] [qnode 0, qnode 1, qnode 2] 2 5).1).length =
      min (ceilDiv 3 2) 5 ∧
    (∀ i c, ((split_q_per_file "s" [catnode 9] [qnode 0, qnode 1, qnode 2] 2 5).1)[i]? =
        some c →
      i + 1 < ((split_q_per_file "s" [catnode 9] [qnode 0, qnode 1, qnode 2] 2 5).1).length →
        (c.2).length = [catnode 9].length + 2) ∧
    (ceilDiv 3 2 ≤ 5 →
      (((split_q_per_file "s" [catnode 9] [qnode 0, qnode 1, qnode 2] 2 5).1).map
        (fun c => c.2.drop [catnode 9].length)).flatten = [qnode 0, qnode 1, qnode 2]) := by
  exact splitByCount_distribution "s" [catnode 9] [qnode 0, qnode 1, qnode 2]
    2 5 (by decide) (by decide)

/-- **C3, counterexample.** An all-failing compiler run (every pass exits 1
and deposits nothing): the expected artifact `t-moodle.xml` is absent from
the working directory after the pass sequence, yet its path is appended to
`self.tempxmlfiles` — the merge input list — all the same. No outcome is
recorded and nothing is excluded, contradicting the claim. -/
theorem compile_files_no_exclusion_counterexample :
    (compile_files (fun _ => ⟨1, []⟩) false false "t" [] []).2.1 = [] ∧
    (compile_files (fun _ => ⟨1, []⟩) false false "t" [] []).2.2 =
      ["t-moodle.xml"] := by
  exact ⟨rfl, rfl⟩

/-- **C3 (amended).** A compiler-invocation failure never aborts the job
early: the full configured pass sequence (one pass, or three with the
pythontex flag) is always run, and the expected artifact path is appended to
the merge input list unconditionally — the pass results are never consulted,
so no artifact-existence check is made and absent artifacts are not excluded
from the merge input. -/
theorem compile_files_oblivious (oracle oracle2 : Nat → SubprocRes)
    (pythontex logfile : Bool) (tmpfile : String) (cwd : List String)
    (tempxmlfiles : List String) :
    (compile_files oracle pythontex logfile tmpfile cwd tempxmlfiles).1 =
      (if pythontex then 3 else 1) ∧
    (compile_files oracle pythontex logfile tmpfile cwd tempxmlfiles).2.2 =
      tempxmlfiles ++ [tmpfile ++ "-moodle.xml"] ∧
    (compile_files oracle pythontex logfile tmpfile cwd tempxmlfiles).2.2 =
      (compile_files oracle2 pythontex logfile tmpfile cwd tempxmlfiles).2.2 := by
  unfold compile_files
  by_cases hp : pythontex <;> simp [hp]

/-- **C4.** Merging an empty sequence of artifact paths fails — the source
raises at `roots[0]`, modelled as the `emptyInput` error — and the error is
returned before any write, so no output document is produced on any
filesystem, for any output name and either retention setting. -/
theorem merge_empty_fails (fs : FS) (name : String) (dt : Bool) :
    merge_xml_fs fs name [] dt = .error .emptyInput := by
  rfl

/-- **C5, counterexample.** `itemsPerFile = 0` does not fail: on a document
with a category marker and one item the split succeeds and writes one chunk
(no `InvalidArgumentError`, no divergence). -/
theorem splitByCount_zero_counterexample :
    split_by_number "s" [catnode 0, qnode 1] 0 5 =
      .ok ([(chunkName "s" 1, [catnode 0, qnode 1])], none) ∧
    (split_by_number "s" [catnode 0, qnode 1] 0 5).isOk = true := by
  exact ⟨rfl, rfl⟩

theorem split_loop_zero_one (stem : String) (root : Doc) (n : Nat) :
    ∀ qs working qidx fidx acc,
      split_loop stem root 0 n qs working qidx fidx acc =
        split_loop stem root 1 n qs working qidx fidx acc := by
  intro qs
  induction qs with
  | nil => intro working qidx fidx acc; rfl
  | cons q qs ih =>
    intro working qidx fidx acc
    rw [split_loop, split_loop]
    have h0 : (0 : Nat) ≤ qidx + 1 := by omega
    have h1 : (1 : Nat) ≤ qidx + 1 := by omega
    simp only [h0, h1, if_true]
    by_cases hl : n < fidx + 1
    · simp [hl]
    · simp [hl, ih]

/-- **C5 (amended).** Count-mode split with `itemsPerFile = 0` is not
rejected: it behaves exactly as `itemsPerFile = 1` (the write condition
`qidx >= q_per_file` is already true after the first append), for every
document and file cap. -/
theorem splitByCount_zero_as_one (stem : String) (d : Doc) (nf : Nat) :
    split_by_number stem d 0 nf = split_by_number stem d 1 nf := by
  unfold split_by_number
  cases hre : read_xml_file d with
  | error e => rfl
  | ok p =>
    obtain ⟨root, q⟩ := p
    simp only [split_q_per_file, split_loop_zero_one]

/-- **C6, counterexample.** Input file of 4 MiB, budget 1 MiB per chunk, cap
2 files, 8 items: the code derives `q_per_file = floor(8 / 4) = 2` from the
UNCLAMPED chunk count 4 and writes two 2-item chunks, whereas the claim's
formula `floor(totalItems / clampedCount) = floor(8 / 2) = 4` demands 4-item
chunks. -/
theorem splitBySize_divisor_counterexample :
    split_by_size "s"
        [qnode 0, qnode 1, qnode 2, qnode 3, qnode 4, qnode 5, qnode 6, qnode 7]
        (4 * 2 ^ 20) 1 (some 2) =
      .ok ([(chunkName "s" 1, [qnode 0, qnode 1]),
            (chunkName "s" 2, [qnode 2, qnode 3])], none) ∧
    8 / min (ceilDiv (4 * 2 ^ 20) (1 * 2 ^ 20)) 2 = 4 := by
  exact ⟨rfl, rfl⟩

/-- **C6 (amended).** Size-budget split derives the required chunk count as
`ceil(filesize / (budgetMB * 2^20))`, clamps the FILE CAP (not the divisor)
to the caller-supplied bound when one is given and positive, derives
items-per-chunk as `floor(totalItems / unclampedChunkCount)`, and delegates
to the count-mode distribution with those two numbers. -/
theorem splitBySize_formulas (stem : String) (d : Doc) (filesize mb : Nat)
    (nfiles : Option Nat) (root q : Doc) (hmb : 1 ≤ mb) (hfs : 1 ≤ filesize)
    (hread : read_xml_file d = .ok (root, q)) :
    split_by_size stem d filesize mb nfiles =
      .ok (split_q_per_file stem root q
        (q.length / ceilDiv filesize (mb * 2 ^ 20))
        (match nfiles with
         | some nf =>
           if 0 < nf then min (ceilDiv filesize (mb * 2 ^ 20)) nf
           else ceilDiv filesize (mb * 2 ^ 20)
         | none => ceilDiv filesize (mb * 2 ^ 20))) := by
  have hB : 0 < mb * 2 ^ 20 := by positivity
  have hM : ¬ ((filesize + mb * 2 ^ 20 - 1) / (mb * 2 ^ 20) = 0) := by
    rw [Nat.div_eq_zero_iff (by omega)]
    omega
  unfold split_by_size
  rw [hread]
  simp only [ceilDiv, hM, if_false, if_neg (by omega : ¬ (mb * 2 ^ 20 = 0))]

/-- Witness for `splitBySize_formulas`: one item, a 5-byte file, a 1 MiB
budget and no caller cap. -/
theorem splitBySize_formulas_witness :
    split_by_size "s" [qnode 0] 5 1 none =
      .ok (split_q_per_file "s" [] [qnode 0]
        (1 / ceilDiv 5 (1 * 2 ^ 20)) (ceilDiv 5 (1 * 2 ^ 20))) := by
  have h := splitBySize_formulas "s" [qnode 0] 5 1 none [] [qnode 0]
    (by decide) (by decide) (by rfl)
  simpa using h

/-- **C7, counterexample.** Five items, two per file, cap one: production
stops after one chunk with three items left over, and the operation's return
value is `None` — no truncation count is surfaced to the caller, contrary to
the claim. -/
theorem split_truncation_counterexample :
    (split_q_per_file "s" [] [qnode 0, qnode 1, qnode 2, qnode 3, qnode 4] 2 1).1 =
      [(chunkName "s" 1, [qnode 0, qnode 1])] ∧
    (split_q_per_file "s" [] [qnode 0, qnode 1, qnode 2, qnode 3, qnode 4] 2 1).2 =
      none := by
  exact ⟨rfl, rfl⟩

/-- **C7 (amended).** When items remain beyond `maxFiles` chunks
(`maxFiles < ceil(totalItems / itemsPerFile)`, with both parameters ≥ 1),
chunk production stops at exactly `maxFiles` full chunks covering only the
first `maxFiles * itemsPerFile` items; the remaining items are silently
dropped and the function returns `None` — no truncation count is surfaced in
the return value. -/
theorem splitByCount_truncation (stem : String) (root : Doc) (q : List Node)
    (k n : Nat) (hk : 1 ≤ k) (hn : 1 ≤ n) (htr : n < ceilDiv q.length k) :
    ((split_q_per_file stem root q k n).1).length = n ∧
    (((split_q_per_file stem root q k n).1).map
      (fun c => c.2.drop root.length)).flatten = q.take (n * k) ∧
    (split_q_per_file stem root q k n).2 = none := by
  have hw := split_q_per_file_spec stem root q k n hk hn
  refine ⟨?_, ?_, rfl⟩
  · rw [hw, nameChunks_length, List.length_take, chunkify_length k hk]
    omega
  · rw [hw, nameChunks_items]
    exact chunkify_take_flatten k hk q n (by rw [chunkify_length k hk]; omega)

/-- Witness for `splitByCount_truncation`: five items, two per file, cap
two. -/
theorem splitByCount_truncation_witness :
    ((split_q_per_file "t" [] [qnode 0, qnode 1, qnode 2, qnode 3, qnode 4] 2 2).1).length = 2 ∧
    (((split_q_per_file "t" [] [qnode 0, qnode 1, qnode 2, qnode 3, qnode 4] 2 2).1).map
      (fun c => c.2.drop ([] : Doc).length)).flatten =
        [qnode 0, qnode 1, qnode 2, qnode 3, qnode 4].take (2 * 2) ∧
    (split_q_per_file "t" [] [qnode 0, qnode 1, qnode 2, qnode 3, qnode 4] 2 2).2 =
      none := by
  have h := splitByCount_truncation "t" []
    [qnode 0, qnode 1, qnode 2, qnode 3, qnode 4] 2 2
    (by decide) (by decide) (by decide)
  simpa using h

/-- **C8, counterexample.** A document holding a category marker and one data
item: after extraction the template still holds the category marker — an
item-kind (question-tagged) node — contradicting the claim that no item-kind
node remains in the shared template. -/
theorem template_no_items_counterexample :
    read_xml_file [catnode 0, qnode 1] = .ok ([catnode 0], [qnode 1]) ∧
    isItem (catnode 0) = true := by
  exact ⟨rfl, rfl⟩

theorem read_xml_file_spec (d : Doc) (hwf : wellFormed d) :
    read_xml_file d =
      .ok (d.filter (fun n => !isKeptItem n), d.filter isKeptItem) := by
  induction d with
  | nil => rfl
  | cons n rest ih =>
    have hn : n.tag = "question" → (attrType n).isSome := hwf n (by simp)
    have hwf' : wellFormed rest := fun m hm => hwf m (by simp [hm])
    rw [read_xml_file]
    by_cases hq : n.tag = "question"
    · rcases Option.isSome_iff_exists.mp (hn hq) with ⟨t, ht⟩
      by_cases hc : t = "category"
      · have hk : isKeptItem n = false := by simp [isKeptItem, hq, ht, hc]
        simp [hq, ht, hc, ih hwf', List.filter_cons, hk]
      · have hk : isKeptItem n = true := by simp [isKeptItem, hq, ht, hc]
        simp [hq, ht, hc, ih hwf', List.filter_cons, hk]
    · have hk : isKeptItem n = false := by simp [isKeptItem, hq]
      simp [hq, ih hwf', List.filter_cons, hk]

/-- **C8 (amended).** The extraction keeps in the template exactly the
non-extractable children — the non-item children AND the item-kind category
markers — in document order, extracts exactly the item-kind non-category
nodes in document order, and every written chunk starts with a copy of that
template. -/
theorem splitter_template_and_extraction (d : Doc) (hwf : wellFormed d)
    (root q : Doc) (hread : read_xml_file d = .ok (root, q)) :
    root = d.filter (fun n => !isKeptItem n) ∧
    q = d.filter isKeptItem ∧
    (∀ (stem : String) (k n i : Nat) (c : String × Doc), 1 ≤ k → 1 ≤ n →
      ((split_q_per_file stem root q k n).1)[i]? = some c →
        c.2.take root.length = root) := by
  have hspec := read_xml_file_spec d hwf
  rw [hread] at hspec
  have hpair : root = d.filter (fun n => !isKeptItem n) ∧ q = d.filter isKeptItem := by
    cases hspec
    exact ⟨rfl, rfl⟩
  refine ⟨hpair.1, hpair.2, ?_⟩
  intro stem k n i c hk hn hc
  rw [split_q_per_file_spec stem root q k n hk hn, nameChunks_get] at hc
  cases hg : ((chunkify k q).take n)[i]? with
  | none => rw [hg] at hc; simp at hc
  | some g =>
    rw [hg] at hc
    simp only [Option.map_some'] at hc
    injection hc with hc2
    rw [← hc2]
    simp [List.take_left]

/-- Witness for `splitter_template_and_extraction`: a header child, a
category marker and two items. -/
theorem splitter_template_and_extraction_witness :
    [⟨"header", [], 7⟩, catnode 0] =
      List.filter (fun n => !isKeptItem n)
        [⟨"header", [], 7⟩, catnode 0, qnode 1, qnode 2] ∧
    [qnode 1, qnode 2] =
      List.filter isKeptItem [⟨"header", [], 7⟩, catnode 0, qnode 1, qnode 2] ∧
    (∀ (stem : String) (k n i : Nat) (c : String × Doc), 1 ≤ k → 1 ≤ n →
      ((split_q_per_file stem [⟨"header", [], 7⟩, catnode 0] [qnode 1, qnode 2] k n).1)[i]? =
          some c →
        c.2.take [⟨"header", [], 7⟩, catnode 0].length = [⟨"header", [], 7⟩, catnode 0]) := by
  exact splitter_template_and_extraction
    [⟨"header", [], 7⟩, catnode 0, qnode 1, qnode 2] (by decide)
    [⟨"header", [], 7⟩, catnode 0] [qnode 1, qnode 2] (by rfl)

theorem lookup_filter_out (files : List String) (x : String)
    (hx : files.contains x = true) :
    ∀ l : FS, (l.filter (fun p => !(files.contains p.1))).lookup x = none := by
  intro l
  induction l with
  | nil => rfl
  | cons p l ih =>
    obtain ⟨pk, pv⟩ := p
    rw [List.filter_cons]
    by_cases hp : files.contains pk = true
    · simp only [hp, Bool.not_true, Bool.false_eq_true, if_false]
      exact ih
    · have hpf : files.contains pk = false := by
        cases hb : files.contains pk with
        | true => exact absurd hb hp
        | false => rfl
      have hxp : ¬ x = pk := fun he => hp (he ▸ hx)
      have hne : (x == pk) = false := beq_eq_false_iff_ne.mpr hxp
      simp only [hpf, Bool.not_false, if_true, List.lookup, hne]
      exact ih

theorem lookup_of_mem_keys (fs : FS) (x : String)
    (hx : (fs.map (fun p => p.1)).contains x = true) :
    ∃ d, fs.lookup x = some d := by
  induction fs with
  | nil => simp at hx
  | cons p fs ih =>
    by_cases hp : x == p.1
    · exact ⟨p.2, by simp [List.lookup, hp]⟩
    · have hx' : ((fs.map (fun p => p.1)).contains x) = true := by
        simp only [List.map_cons, List.contains_cons] at hx
        rcases Bool.or_eq_true_iff.mp hx with h | h
        · exact absurd h hp
        · exact h
      rcases ih hx' with ⟨d, hd⟩
      exact ⟨d, by simp [List.lookup, hp, hd]⟩

theorem lookup_mem_values (fs : FS) (x : String) (d : Doc)
    (hl : fs.lookup x = some d) : ∃ p ∈ fs, p.2 = d := by
  induction fs with
  | nil => simp [List.lookup] at hl
  | cons p fs ih =>
    obtain ⟨pk, pv⟩ := p
    cases hp : (x == pk) with
    | true =>
      refine ⟨(pk, pv), by simp, ?_⟩
      simp only [List.lookup, hp, Option.some.injEq] at hl
      exact hl
    | false =>
      simp only [List.lookup, hp] at hl
      rcases ih hl with ⟨p2, hp2, hd⟩
      exact ⟨p2, by simp [hp2], hd⟩

theorem parseAll_ok (fs : FS) (hwf : ∀ p ∈ fs, wellFormed p.2) :
    ∀ files, (∀ f ∈ files, (fs.map (fun p => p.1)).contains f = true) →
      ∃ ds, parseAll fs files = .ok ds ∧ (∀ d ∈ ds, wellFormed d) ∧
        ds.length = files.length := by
  intro files
  induction files with
  | nil => intro _; exact ⟨[], rfl, by simp, rfl⟩
  | cons f files ih =>
    intro hmem
    rcases lookup_of_mem_keys fs f (hmem f (by simp)) with ⟨d, hd⟩
    rcases ih (fun g hg => hmem g (by simp [hg])) with ⟨ds, hds, hwfds, hlen⟩
    refine ⟨d :: ds, ?_, ?_, by simp [hlen]⟩
    · rw [parseAll, hd, hds]
    · intro d2 hd2
      rcases List.mem_cons.mp hd2 with h | h
      · rcases lookup_mem_values fs f d hd with ⟨p, hp, hpd⟩
        exact h ▸ hpd ▸ hwf p hp
      · exact hwfds d2 h

/-- **C10.** In merge mode the inputs are every xml file in the working
directory, globbed before the output is written; if the chosen output name
(the given name, extension stripped, plus ".xml") is already among them, the
post-write deletion of the inputs removes the freshly written output too, so
the merge result does not survive on disk. -/
theorem merge_mode_output_deleted (fs : FS) (name : String)
    (hwf : ∀ p ∈ fs, wellFormed p.2)
    (hout : (fs.map (fun p => p.1)).contains (stripExt name ++ ".xml") = true) :
    ∃ fs2, cli_merge_mode fs name true = .ok fs2 ∧
      fs2.lookup (stripExt name ++ ".xml") = none := by
  rcases parseAll_ok fs hwf (fs.map (fun p => p.1)) (fun f hf => by
    exact List.contains_iff_exists_mem_beq.mpr ⟨f, hf, by simp⟩) with
    ⟨ds, hds, hwfds, hlen⟩
  have hne : ds ≠ [] := by
    intro hnil
    rw [hnil] at hlen
    have : fs.map (fun p => p.1) ≠ [] := by
      intro hmapnil
      rw [hmapnil] at hout
      simp at hout
    simp only [List.length_nil] at hlen
    exact this (List.eq_nil_of_length_eq_zero hlen.symm)
  obtain ⟨base, rest, hcons⟩ := List.exists_cons_of_ne_nil hne
  have hmerge : merge_xml ds = .ok (base ++ (rest.map itemFilter).flatten) := by
    rw [hcons]
    unfold merge_xml
    exact mergeRest_ok rest (fun d hd => hwfds d (by simp [hcons, hd])) base
  refine ⟨(fsWrite fs (stripExt name ++ ".xml")
      (base ++ (rest.map itemFilter).flatten)).filter
      (fun p => !((fs.map (fun p => p.1)).contains p.1)), ?_, ?_⟩
  · simp [cli_merge_mode, merge_xml_fs, hds, hmerge]
  · exact lookup_filter_out (fs.map (fun p => p.1)) (stripExt name ++ ".xml") hout _

/-- Witness for `merge_mode_output_deleted`: a directory holding `out.xml`
and `a.xml`, merged into `out.xml`. -/
theorem merge_mode_output_deleted_witness :
    ∃ fs2, cli_merge_mode [("out.xml", [qnode 0]), ("a.xml", [qnode 1])] "out.xml" true =
        .ok fs2 ∧
      fs2.lookup (stripExt "out.xml" ++ ".xml") = none := by
  exact merge_mode_output_deleted [("out.xml", [qnode 0]), ("a.xml", [qnode 1])]
    "out.xml" (by decide) (by decide)

/-- **C9, counterexample.** On the line `\usepackage[draftdraft]{moodle}`
one application removes only the greedily-chosen second draft marker (and
the bracket cleanup does not fire), while a second application removes the
remaining one — so applying the transform twice differs from applying it
once. -/
theorem render_transform_not_idempotent :
    render_transform (render_transform
        ("\\usepackage[draftdraft]{moodle}".toList)) ≠
      render_transform ("\\usepackage[draftdraft]{moodle}".toList) := by
  decide

theorem greedyAux_valid (rest : List Char) :
    ∀ n i, greedyAux rest n = some i → validDraftIdx rest i = true := by
  intro n
  induction n with
  | zero => intro i h; simp [greedyAux] at h
  | succ m ih =>
    intro i h
    rw [greedyAux] at h
    by_cases hv : validDraftIdx rest m = true
    · simp only [hv, if_true, Option.some.injEq] at h
      rw [← h]
      exact hv
    · simp only [hv, if_false, Bool.false_eq_true] at h
      exact ih i h

theorem greedyAux_eq (rest : List Char) (i0 : Nat)
    (hv : validDraftIdx rest i0 = true) :
    ∀ n, i0 < n → (∀ j, i0 < j → j < n → validDraftIdx rest j = false) →
      greedyAux rest n = some i0 := by
  intro n
  induction n with
  | zero => intro h _; omega
  | succ m ih =>
    intro hlt hinv
    rw [greedyAux]
    by_cases hm : i0 = m
    · subst hm
      simp [hv]
    · have h1 : i0 < m := by omega
      have h2 : validDraftIdx rest m = false := hinv m h1 (by omega)
      simp only [h2, Bool.false_eq_true, if_false]
      exact ih h1 (fun j hj1 hj2 => hinv j hj1 (by omega))

theorem draft_infix_of_valid (rest : List Char) (i : Nat)
    (hv : validDraftIdx rest i = true) : draftChars <:+: rest := by
  unfold validDraftIdx at hv
  simp only [Bool.and_eq_true, decide_eq_true_eq, beq_iff_eq] at hv
  obtain ⟨⟨h1, h5⟩, h14⟩ := hv
  refine ⟨rest.take i, (rest.drop i).drop 5, ?_⟩
  rw [← h5, List.append_assoc, List.take_append_drop, List.take_append_drop]

theorem draftSub_of_no_draft (l : List Char) (h : ¬ draftChars <:+: l) :
    draftSub l = l := by
  unfold draftSub
  cases hcond : (l.take 11 == usepackageChars && l.all nonspace &&
      endsWithL moodleSuffix (l.drop 11)) with
  | false => simp [hcond]
  | true =>
    simp only [hcond, if_true]
    cases hidx : draftIdx (l.drop 11) with
    | none => rfl
    | some i =>
      exfalso
      have hv := greedyAux_valid (l.drop 11) _ i hidx
      have hinf : draftChars <:+: l.drop 11 := draft_infix_of_valid _ i hv
      exact h (hinf.trans (List.drop_suffix 11 l).isInfix)

theorem replaceAllAux_congr :
    ∀ n l fuel1 fuel2, l.length ≤ n → l.length ≤ fuel1 → l.length ≤ fuel2 →
      replaceAllAux fuel1 l = replaceAllAux fuel2 l := by
  intro n
  induction n with
  | zero =>
    intro l f1 f2 h0 h1 h2
    have hl : l = [] := List.eq_nil_of_length_eq_zero (by omega)
    subst hl
    cases f1 <;> cases f2 <;> rfl
  | succ m ih =>
    intro l f1 f2 h0 h1 h2
    match l with
    | [] => cases f1 <;> cases f2 <;> rfl
    | c :: rest =>
      simp only [List.length_cons] at h0 h1 h2
      obtain ⟨f1p, rfl⟩ : ∃ k, f1 = k + 1 := ⟨f1 - 1, by omega⟩
      obtain ⟨f2p, rfl⟩ : ∃ k, f2 = k + 1 := ⟨f2 - 1, by omega⟩
      rw [replaceAllAux, replaceAllAux]
      by_cases hc : ((c :: rest).take 21 == patChars) = true
      · simp only [hc, if_true]
        congr 1
        exact ih ((c :: rest).drop 21) f1p f2p
          (by simp only [List.length_drop, List.length_cons]; omega)
          (by simp only [List.length_drop, List.length_cons]; omega)
          (by simp only [List.length_drop, List.length_cons]; omega)
      · simp only [hc, Bool.false_eq_true, if_false]
        congr 1
        exact ih rest f1p f2p (by omega) (by omega) (by omega)

theorem replaceAllL_cons_eq (c : Char) (rest : List Char) :
    replaceAllL (c :: rest) =
      if (c :: rest).take 21 == patChars then
        repChars ++ replaceAllL ((c :: rest).drop 21)
      else c :: replaceAllL rest := by
  show replaceAllAux (rest.length + 1) (c :: rest) = _
  rw [replaceAllAux]
  by_cases hc : ((c :: rest).take 21 == patChars) = true
  · simp only [hc, if_true]
    congr 1
    exact replaceAllAux_congr ((c :: rest).drop 21).length _ rest.length _
      (le_refl _)
      (by simp only [List.length_drop, List.length_cons]; omega)
      (le_refl _)
  · simp only [hc, Bool.false_eq_true, if_false]
    rfl

theorem pat_prefix_of_take (l : List Char) (h : l.take 21 = patChars) :
    patChars <:+: l := by
  rw [← h]
  exact (List.take_prefix 21 l).isInfix

theorem replaceAllL_no_pat :
    ∀ fuel l, l.length ≤ fuel → ¬ patChars <:+: l → replaceAllAux fuel l = l := by
  intro fuel
  induction fuel with
  | zero => intro l _ _; rfl
  | succ m ih =>
    intro l hlen hnp
    match l with
    | [] => rfl
    | c :: rest =>
      rw [replaceAllAux]
      have hc : ((c :: rest).take 21 == patChars) = false := by
        cases hcc : ((c :: rest).take 21 == patChars) with
        | false => rfl
        | true => exact absurd (pat_prefix_of_take _ (beq_iff_eq.mp hcc)) hnp
      simp only [hc, Bool.false_eq_true, if_false]
      congr 1
      exact ih rest (by simp at hlen; omega)
        (fun hin => hnp (List.infix_cons hin))

theorem replaceAllL_eq_of_no_pat (l : List Char) (hnp : ¬ patChars <:+: l) :
    replaceAllL l = l :=
  replaceAllL_no_pat l.length l (le_refl _) hnp

theorem pat_fits (x y : List Char) (h : (x ++ '\n' :: y).take 21 = patChars) :
    21 ≤ x.length ∧ x.take 21 = patChars := by
  have hlen : 21 ≤ x.length := by
    by_contra hlt
    push_neg at hlt
    have h1 : ((x ++ '\n' :: y).take 21)[x.length]? = some '\n' := by
      rw [List.getElem?_take]
      simp only [hlt, if_true]
      rw [List.getElem?_append_right (le_refl _)]
      simp
    rw [h] at h1
    have h2 : '\n' ∈ patChars := List.getElem?_mem h1
    simp [patChars] at h2
  refine ⟨hlen, ?_⟩
  rw [← List.take_append_of_le_length hlen, h]

theorem replaceAllAux_newline :
    ∀ fuel a b, (a ++ '\n' :: b).length ≤ fuel →
      replaceAllAux fuel (a ++ '\n' :: b) =
        replaceAllL a ++ '\n' :: replaceAllL b := by
  intro fuel
  induction fuel with
  | zero => intro a b h; simp at h
  | succ m ih =>
    intro a b hlen
    match a with
    | [] =>
      simp only [List.nil_append]
      rw [replaceAllAux]
      have hc : (('\n' :: b).take 21 == patChars) = false := by
        cases hcc : (('\n' :: b).take 21 == patChars) with
        | false => rfl
        | true =>
          have heq := beq_iff_eq.mp hcc
          rw [List.take_succ_cons] at heq
          have hh := congrArg List.head? heq
          rw [show patChars.head? = some '\\' from rfl] at hh
          simp only [List.head?_cons, Option.some.injEq] at hh
          exact absurd hh (by decide)
      simp only [hc, Bool.false_eq_true, if_false]
      show '\n' :: replaceAllAux m b = replaceAllL [] ++ '\n' :: replaceAllL b
      simp only [List.nil_append] at hlen ⊢
      congr 1
      exact replaceAllAux_congr b.length b m b.length (le_refl _)
        (by simp at hlen; omega) (le_refl _)
    | c :: ap =>
      rw [List.cons_append, replaceAllAux, ← List.cons_append]
      by_cases hfit : ((c :: ap).take 21 == patChars) = true
      · have hfit2 := beq_iff_eq.mp hfit
        have h21 : 21 ≤ (c :: ap).length := by
          have := congrArg List.length hfit2
          simp only [List.length_take] at this
          have : min 21 (c :: ap).length = 21 := by
            rw [this]; rfl
          omega
        have hbig : (((c :: ap) ++ '\n' :: b).take 21 == patChars) = true := by
          rw [List.take_append_of_le_length h21]
          exact hfit
        simp only [hbig, if_true]
        have hdrop : ((c :: ap) ++ '\n' :: b).drop 21 =
            (c :: ap).drop 21 ++ '\n' :: b :=
          List.drop_append_of_le_length h21
        rw [hdrop]
        rw [ih ((c :: ap).drop 21) b (by
          simp only [List.length_append, List.length_drop, List.length_cons] at hlen ⊢
          omega)]
        rw [replaceAllL_cons_eq, if_pos hfit, List.append_assoc]
      · have hbig : (((c :: ap) ++ '\n' :: b).take 21 == patChars) = false := by
          cases hcc : (((c :: ap) ++ '\n' :: b).take 21 == patChars) with
          | false => rfl
          | true =>
            have hfits := pat_fits (c :: ap) b (beq_iff_eq.mp hcc)
            exact absurd (beq_iff_eq.mpr hfits.2) hfit
        simp only [hbig, Bool.false_eq_true, if_false]
        rw [ih ap b (by
          simp only [List.length_append, List.length_cons] at hlen ⊢
          omega)]
        rw [replaceAllL_cons_eq, if_neg hfit]
        rfl

theorem replaceAllL_newline (a b : List Char) :
    replaceAllL (a ++ '\n' :: b) = replaceAllL a ++ '\n' :: replaceAllL b :=
  replaceAllAux_newline _ a b (le_refl _)

theorem replaceAllL_joinLines :
    ∀ ls : List (List Char),
      replaceAllL (joinLines ls) = joinLines (ls.map replaceAllL) := by
  intro ls
  match ls with
  | [] => rfl
  | [l] => rfl
  | l :: l2 :: rest =>
    rw [show joinLines (l :: l2 :: rest) = l ++ '\n' :: joinLines (l2 :: rest)
      from rfl]
    rw [replaceAllL_newline, replaceAllL_joinLines (l2 :: rest)]
    rfl

theorem splitLines_no_newline : ∀ l : List Char, '\n' ∉ l → splitLines l = [l] := by
  intro l
  induction l with
  | nil => intro _; rfl
  | cons c rest ih =>
    intro h
    have hc : ¬ c = '\n' := fun he => h (by simp [he])
    rw [splitLines]
    simp only [hc, if_false]
    rw [ih (fun hm => h (by simp [hm]))]

theorem splitLines_append (a b : List Char) (ha : '\n' ∉ a) :
    splitLines (a ++ '\n' :: b) = a :: splitLines b := by
  induction a with
  | nil => simp [splitLines]
  | cons c ap ih =>
    have hc : ¬ c = '\n' := fun he => ha (by simp [he])
    rw [List.cons_append, splitLines]
    simp only [hc, if_false]
    rw [ih (fun hm => ha (by simp [hm]))]

theorem splitLines_joinLines :
    ∀ ls : List (List Char), ls ≠ [] → (∀ l ∈ ls, '\n' ∉ l) →
      splitLines (joinLines ls) = ls := by
  intro ls
  match ls with
  | [] => intro h _; exact absurd rfl h
  | [l] =>
    intro _ hl
    rw [joinLines, splitLines_no_newline l (hl l (by simp))]
  | l :: l2 :: rest =>
    intro _ hl
    rw [show joinLines (l :: l2 :: rest) = l ++ '\n' :: joinLines (l2 :: rest)
      from rfl]
    rw [splitLines_append l _ (hl l (by simp))]
    rw [splitLines_joinLines (l2 :: rest) (List.cons_ne_nil _ _)
      (fun m hm => hl m (by simp at hm ⊢; tauto))]

theorem infix_append_decomp {p x y : List Char} (h : p <:+: x ++ y) :
    p <:+: x ∨ p <:+: y ∨
      ∃ m, 0 < m ∧ m < p.length ∧ p.take m <:+ x ∧ p.drop m <+: y := by
  obtain ⟨s, t, hst⟩ := h
  by_cases h1 : s.length + p.length ≤ x.length
  · left
    have hx := congrArg (List.take (s.length + p.length)) hst
    rw [List.take_append_of_le_length h1,
      List.take_append_of_le_length (by simp : s.length + p.length ≤ (s ++ p).length),
      List.take_of_length_le (by simp)] at hx
    refine ⟨s, x.drop (s.length + p.length), ?_⟩
    rw [hx, List.take_append_drop]
  · by_cases h2 : x.length ≤ s.length
    · right; left
      have hy := congrArg (List.drop x.length) hst
      have e1 : x.length - (s ++ p).length = 0 := by simp; omega
      have e2 : x.length - s.length = 0 := by omega
      rw [List.drop_left, List.drop_append_eq_append_drop, e1, List.drop_zero,
        List.drop_append_eq_append_drop, e2, List.drop_zero] at hy
      exact ⟨s.drop x.length, t, hy⟩
    · right; right
      push_neg at h1 h2
      refine ⟨x.length - s.length, by omega, by omega, ?_, ?_⟩
      · have hx := congrArg (List.take x.length) hst
        have e1 : x.length - (s ++ p).length = 0 := by simp; omega
        rw [List.take_left, List.take_append_eq_append_take, e1, List.take_zero,
          List.append_nil, List.take_append_eq_append_take,
          List.take_of_length_le h2.le] at hx
        exact ⟨s, hx⟩
      · have hy := congrArg (List.drop x.length) hst
        have e1 : x.length - (s ++ p).length = 0 := by simp; omega
        rw [List.drop_left, List.drop_append_eq_append_drop, e1, List.drop_zero,
          List.drop_append_eq_append_drop, List.drop_eq_nil_of_le h2.le,
          List.nil_append] at hy
        exact ⟨t, hy⟩

theorem head_eq_of_isPrefix {u v : List Char} (h : u <+: v) (hu : u ≠ []) :
    v.head? = u.head? := by
  obtain ⟨t, rfl⟩ := h
  rw [List.head?_append]
  cases hl : u.head? with
  | none => exact absurd (List.head?_eq_none_iff.mp hl) hu
  | some a => rfl

theorem last_eq_of_isSuffix {u v : List Char} (h : u <:+ v) (hu : u ≠ []) :
    v.getLast? = u.getLast? := by
  obtain ⟨s, rfl⟩ := h
  rw [List.getLast?_append]
  cases hl : u.getLast? with
  | none => exact absurd (List.getLast?_eq_none_iff.mp hl) hu
  | some a => rfl

theorem take_ne_nil_of_pos {l : List Char} {m : Nat} (h0 : 0 < m)
    (hl : l ≠ []) : l.take m ≠ [] := by
  intro hnil
  have := congrArg List.length hnil
  simp only [List.length_take, List.length_nil] at this
  rcases Nat.min_eq_zero_iff.mp this with h | h
  · omega
  · exact hl (List.eq_nil_of_length_eq_zero h)

theorem drop_ne_nil_of_lt {l : List Char} {m : Nat} (h : m < l.length) :
    l.drop m ≠ [] := by
  intro hnil
  have := congrArg List.length hnil
  simp only [List.length_drop, List.length_nil] at this
  omega

theorem cleanLine_no_draft (s : List Char) (hs : ¬ draftChars <:+: s) :
    ¬ draftChars <:+: cleanLine s := by
  intro h
  unfold cleanLine at h
  rw [List.append_assoc] at h
  have h5 : draftChars.length = 5 := rfl
  rcases infix_append_decomp h with h1 | h1 | ⟨m, hm0, hm5, hsfx, hpfx⟩
  · exact absurd h1 (by decide)
  · rcases infix_append_decomp h1 with h2 | h2 | ⟨m, hm0, hm5, hsfx, hpfx⟩
    · exact hs h2
    · exact absurd h2 (by decide)
    · have hh := head_eq_of_isPrefix hpfx
        (drop_ne_nil_of_lt (by omega))
      rw [show ("]{moodle}".toList).head? = some ']' from rfl,
        List.head?_drop] at hh
      exact (by decide : ∀ j, j < 5 → ¬ draftChars[j]? = some ']') m
        (by omega) hh.symm
  · have hl := last_eq_of_isSuffix hsfx
      (take_ne_nil_of_pos hm0 (by decide))
    rw [show ("\\usepackage[".toList).getLast? = some '[' from rfl,
      List.getLast?_take, if_neg (by omega)] at hl
    exact (by decide :
        ∀ j, j < 5 → ¬ (draftChars[j]?.or draftChars.getLast? = some '['))
      (m - 1) (by omega) hl.symm

theorem cleanLine_no_pat (s : List Char) (hne : s ≠ [])
    (hopt : ∀ c ∈ s, optChar c = true) :
    ¬ patChars <:+: cleanLine s := by
  intro h
  unfold cleanLine at h
  rw [List.append_assoc] at h
  have h21 : patChars.length = 21 := rfl
  rcases infix_append_decomp h with h1 | h1 | ⟨m, hm0, hmlen, hsfx, hpfx⟩
  · have := h1.length_le
    rw [h21, show ("\\usepackage[".toList).length = 12 from rfl] at this
    omega
  · rcases infix_append_decomp h1 with h2 | h2 | ⟨m, hm0, hmlen, hsfx, hpfx⟩
    · have hbs : '\\' ∈ s := h2.subset (by decide : '\\' ∈ patChars)
      exact absurd (hopt '\\' hbs) (by decide)
    · have := h2.length_le
      rw [h21, show ("]{moodle}".toList).length = 9 from rfl] at this
      omega
    · have hmem : '\\' ∈ patChars.take m := by
        apply List.getElem?_mem (n := 0)
        rw [List.getElem?_take]
        rw [if_pos (by omega)]
        rfl
      have hbs : '\\' ∈ s := hsfx.subset hmem
      exact absurd (hopt '\\' hbs) (by decide)
  · have hl := last_eq_of_isSuffix hsfx
      (take_ne_nil_of_pos hm0 (by decide))
    rw [show ("\\usepackage[".toList).getLast? = some '[' from rfl,
      List.getLast?_take, if_neg (by omega)] at hl
    have hm12 : m = 12 := by
      have := (by decide :
          ∀ j, j < 21 → patChars[j]?.or patChars.getLast? = some '[' → j = 11)
        (m - 1) (by omega) hl.symm
      omega
    subst hm12
    have hh := head_eq_of_isPrefix hpfx (by decide)
    rw [show (patChars.drop 12).head? = some ']' from rfl,
      List.head?_append] at hh
    cases hs0 : s.head? with
    | none => exact hne (List.head?_eq_none_iff.mp hs0)
    | some c0 =>
      rw [hs0] at hh
      have hc0 : c0 = ']' := by
        simpa [Option.or] using hh
      have hmem : c0 ∈ s := by
        apply List.getElem?_mem (n := 0)
        rw [← List.head?_eq_getElem?]
        exact hs0
      rw [hc0] at hmem
      exact absurd (hopt ']' hmem) (by decide)

theorem optChar_nonspace (c : Char) (h : optChar c = true) : nonspace c = true := by
  unfold optChar at h
  unfold nonspace isSpaceChar
  simp only [Bool.or_eq_true, Bool.and_eq_true, decide_eq_true_eq] at h
  simp only [Bool.not_eq_true', Bool.or_eq_false_iff, decide_eq_false_iff_not]
  omega

theorem optChar_ne_newline (c : Char) (h : optChar c = true) : c ≠ '\n' := by
  intro he
  subst he
  exact absurd h (by decide)

theorem endsWith_append (suf y x : List Char) (h : endsWithL suf y = true) :
    endsWithL suf (x ++ y) = true := by
  unfold endsWithL at h ⊢
  simp only [Bool.and_eq_true, decide_eq_true_eq, beq_iff_eq] at h ⊢
  obtain ⟨hlen, hdrop⟩ := h
  refine ⟨by simp; omega, ?_⟩
  have e1 : (x ++ y).length - suf.length = x.length + (y.length - suf.length) := by
    simp
    omega
  rw [e1, List.drop_append]
  exact hdrop

theorem string_split_bracket :
    ("\\usepackage[".toList : List Char) = "\\usepackage".toList ++ ['['] := by
  decide

theorem inclLine_norm (o1 o2 : List Char) :
    inclLine o1 o2 =
      "\\usepackage".toList ++
        ('[' :: (o1 ++ (draftChars ++ (o2 ++ "]{moodle}".toList)))) := by
  rw [inclLine, string_split_bracket]
  simp [List.append_assoc]

theorem draftSub_inclLine (o1 o2 : List Char)
    (hopt : ∀ c ∈ o1 ++ o2, optChar c = true)
    (hdr : ¬ draftChars <:+: (o1 ++ o2)) :
    draftSub (inclLine o1 o2) = cleanLine (o1 ++ o2) := by
  have ho1 : ∀ c ∈ o1, optChar c = true := fun c hc => hopt c (by simp [hc])
  have ho2 : ∀ c ∈ o2, optChar c = true := fun c hc => hopt c (by simp [hc])
  set A : List Char := '[' :: o1 with hA
  set B : List Char := o2 ++ "]{moodle}".toList with hB
  have hrest : (inclLine o1 o2).drop 11 = A ++ (draftChars ++ B) := by
    rw [inclLine_norm]
    rw [List.drop_append_eq_append_drop]
    rw [show ("\\usepackage".toList : List Char).length = 11 from rfl]
    rw [show ("\\usepackage".toList : List Char).drop 11 = [] from rfl]
    simp [hA, hB, List.append_assoc]
  have htake : (inclLine o1 o2).take 11 = "\\usepackage".toList := by
    rw [inclLine_norm]
    rw [List.take_append_of_le_length (by simp)]
    rfl
  have hAlen : A.length = o1.length + 1 := by simp [hA]
  have hABlen : (A ++ (draftChars ++ B)).length =
      o1.length + o2.length + 15 := by
    simp [hA, hB, draftChars]
    omega
  -- the branch condition holds
  have hc1 : ((inclLine o1 o2).take 11 == usepackageChars) = true := by
    rw [htake]; rfl
  have hc2 : (inclLine o1 o2).all nonspace = true := by
    rw [inclLine_norm]
    simp only [List.all_append, List.all_cons, Bool.and_eq_true, List.all_eq_true]
    refine ⟨by decide, by decide, fun c hc => optChar_nonspace c (ho1 c hc),
      by decide, fun c hc => optChar_nonspace c (ho2 c hc), by decide⟩
  have hc3 : endsWithL moodleSuffix ((inclLine o1 o2).drop 11) = true := by
    rw [hrest]
    have hre : A ++ (draftChars ++ B) =
        (A ++ (draftChars ++ o2)) ++ "]{moodle}".toList := by
      simp [hB, List.append_assoc]
    rw [hre]
    exact endsWith_append _ _ _ (by decide)
  -- the greedy index is o1.length + 1
  have hval : validDraftIdx (A ++ (draftChars ++ B)) (o1.length + 1) = true := by
    unfold validDraftIdx
    simp only [Bool.and_eq_true, decide_eq_true_eq, beq_iff_eq]
    refine ⟨⟨by omega, ?_⟩, by rw [hABlen]; omega⟩
    rw [List.drop_left' (by rw [hAlen])]
    rw [List.take_append_of_le_length (by rw [show draftChars.length = 5 from rfl])]
    rfl
  have hinval : ∀ j, o1.length + 1 < j → j < (A ++ (draftChars ++ B)).length →
      validDraftIdx (A ++ (draftChars ++ B)) j = false := by
    intro j hj1 hj2
    cases hv : validDraftIdx (A ++ (draftChars ++ B)) j with
    | false => rfl
    | true =>
      exfalso
      unfold validDraftIdx at hv
      simp only [Bool.and_eq_true, decide_eq_true_eq, beq_iff_eq] at hv
      obtain ⟨⟨hge1, heq5⟩, hlen14⟩ := hv
      rw [hABlen] at hlen14 hj2
      by_cases hnear : j < o1.length + 1 + 5
      · -- j = (o1.length + 1) + mm with 1 ≤ mm ≤ 4: first char is not d
        have hd : (A ++ (draftChars ++ B))[j]? = some 'd' := by
          have h0 := congrArg (fun l : List Char => l[0]?) heq5
          simp only [List.getElem?_take, if_pos (by omega : (0:Nat) < 5),
            List.getElem?_drop, Nat.add_zero] at h0
          simpa using h0
        rw [List.getElem?_append_right (by omega : A.length ≤ j)] at hd
        rw [hAlen] at hd
        rw [List.getElem?_append_left (by
          rw [show draftChars.length = 5 from rfl]; omega)] at hd
        exact (by decide : ∀ mm, 1 ≤ mm → mm ≤ 4 →
          ¬ draftChars[mm]? = some 'd') (j - (o1.length + 1)) (by omega)
          (by omega) hd
      · -- j ≥ (o1.length + 1) + 5 : the draft marker would sit inside o2
        have hj5 : o1.length + 6 ≤ j := by omega
        have hbound : j - (o1.length + 6) + 5 ≤ o2.length := by omega
        have hdropj : (A ++ (draftChars ++ B)).drop j =
            o2.drop (j - (o1.length + 6)) ++ "]{moodle}".toList := by
          have hre : A ++ (draftChars ++ B) = (A ++ draftChars) ++ B := by
            simp [List.append_assoc]
          rw [hre, List.drop_append_eq_append_drop,
            List.drop_eq_nil_of_le (by simp [hAlen, draftChars]; omega),
            List.nil_append, hB, List.drop_append_eq_append_drop]
          have e2 : j - (A ++ draftChars).length = j - (o1.length + 6) := by
            simp [hAlen, draftChars]
          rw [e2]
          have e3 : j - (o1.length + 6) - o2.length = 0 := by omega
          rw [e3, List.drop_zero]
        rw [hdropj] at heq5
        rw [List.take_append_of_le_length (by
          simp only [List.length_drop]; omega)] at heq5
        apply hdr
        have : o2 = o2.take (j - (o1.length + 6)) ++ draftChars ++
            (o2.drop (j - (o1.length + 6))).drop 5 := by
          rw [← heq5, List.append_assoc, List.take_append_drop,
            List.take_append_drop]
        exact List.IsInfix.trans
          (⟨o2.take (j - (o1.length + 6)),
            (o2.drop (j - (o1.length + 6))).drop 5, this.symm⟩ :
              draftChars <:+: o2)
          ⟨o1, [], by simp⟩
  have hgreedy : draftIdx ((inclLine o1 o2).drop 11) = some (o1.length + 1) := by
    rw [hrest]
    exact greedyAux_eq _ _ hval _ (by rw [hABlen]; omega) hinval
  -- assemble
  unfold draftSub
  rw [hc1, hc2, hc3]
  simp only [Bool.and_self, if_true]
  rw [hgreedy, htake, hrest]
  show "\\usepackage".toList ++
      (A ++ (draftChars ++ B)).take (o1.length + 1) ++
      (A ++ (draftChars ++ B)).drop (o1.length + 1 + 5) = cleanLine (o1 ++ o2)
  rw [List.take_left' (by rw [hAlen])]
  have hdrop6 : (A ++ (draftChars ++ B)).drop (o1.length + 1 + 5) = B := by
    have hre : A ++ (draftChars ++ B) = (A ++ draftChars) ++ B := by
      simp [List.append_assoc]
    rw [hre, List.drop_left' (by
      simp only [List.length_append, hAlen, show draftChars.length = 5 from rfl])]
  rw [hdrop6]
  rw [cleanLine, string_split_bracket]
  simp [hA, hB, List.append_assoc]

theorem inclLine_no_newline (o1 o2 : List Char)
    (hopt : ∀ c ∈ o1 ++ o2, optChar c = true) : '\n' ∉ inclLine o1 o2 := by
  intro hmem
  rw [inclLine] at hmem
  simp only [List.mem_append] at hmem
  rcases hmem with ((((h | h) | h) | h) | h)
  · exact absurd h (by decide)
  · exact optChar_ne_newline '\n' (hopt '\n' (by simp [h])) rfl
  · exact absurd h (by decide)
  · exact optChar_ne_newline '\n' (hopt '\n' (by simp [h])) rfl
  · exact absurd h (by decide)

theorem cleanLine_no_newline (s : List Char)
    (hopt : ∀ c ∈ s, optChar c = true) : '\n' ∉ cleanLine s := by
  intro hmem
  rw [cleanLine] at hmem
  simp only [List.mem_append] at hmem
  rcases hmem with ((h | h) | h)
  · exact absurd h (by decide)
  · exact optChar_ne_newline '\n' (hopt '\n' h) rfl
  · exact absurd h (by decide)

theorem cleanLine_nil : cleanLine [] = patChars := by decide

theorem replaceAllL_patChars : replaceAllL patChars = repChars := by decide

/-- A text whose lines are all inert is a fixed point of the transform. -/
theorem render_transform_fixed (ls : List (List Char))
    (h : ∀ l ∈ ls, inertLine l) (hne : ls ≠ []) :
    render_transform (joinLines ls) = joinLines ls := by
  unfold render_transform
  rw [splitLines_joinLines ls hne (fun l hl => (h l hl).2.2)]
  rw [show ls.map draftSub = ls from by
    rw [List.map_congr_left (fun l hl => draftSub_of_no_draft l (h l hl).1),
      List.map_id']]
  rw [replaceAllL_joinLines]
  rw [show ls.map replaceAllL = ls from by
    rw [List.map_congr_left (fun l hl => replaceAllL_eq_of_no_pat l (h l hl).2.1),
      List.map_id']]

/-- One application of the transform on a canonical document: the inert lines
are untouched and the inclusion line loses its draft marker (plus, when the
option text is empty, its leftover empty brackets). -/
theorem render_transform_canonical (pre post : List (List Char)) (o1 o2 : List Char)
    (hpre : ∀ l ∈ pre, inertLine l) (hpost : ∀ l ∈ post, inertLine l)
    (hopt : ∀ c ∈ o1 ++ o2, optChar c = true)
    (hdr : ¬ draftChars <:+: (o1 ++ o2)) :
    render_transform (joinLines (pre ++ [inclLine o1 o2] ++ post)) =
      joinLines (pre ++ [replaceAllL (cleanLine (o1 ++ o2))] ++ post) := by
  unfold render_transform
  rw [splitLines_joinLines _ (by simp) (by
    intro l hl
    simp only [List.mem_append, List.mem_singleton] at hl
    rcases hl with (hl | hl) | hl
    · exact (hpre l hl).2.2
    · rw [hl]; exact inclLine_no_newline o1 o2 hopt
    · exact (hpost l hl).2.2)]
  rw [show (pre ++ [inclLine o1 o2] ++ post).map draftSub =
      pre ++ [cleanLine (o1 ++ o2)] ++ post from by
    simp only [List.map_append, List.map_cons, List.map_nil]
    rw [List.map_congr_left (fun l hl => draftSub_of_no_draft l (hpre l hl).1),
      List.map_id']
    rw [List.map_congr_left (fun l hl => draftSub_of_no_draft l (hpost l hl).1),
      List.map_id']
    rw [draftSub_inclLine o1 o2 hopt hdr]]
  rw [replaceAllL_joinLines]
  simp only [List.map_append, List.map_cons, List.map_nil]
  rw [List.map_congr_left (fun l hl => replaceAllL_eq_of_no_pat l (hpre l hl).2.1),
    List.map_id']
  rw [List.map_congr_left (fun l hl => replaceAllL_eq_of_no_pat l (hpost l hl).2.1),
    List.map_id']

/-- **C9 (amended).** The transform is not idempotent on arbitrary rendered
text (see the counterexample), but it is idempotent on canonical rendered
documents: any lines free of the draft marker and of the empty-options
inclusion, around one package-inclusion line whose options consist of
letters, digits and commas with a single draft marker. A second application
changes nothing. -/
theorem render_transform_idempotent_on_canonical
    (pre post : List (List Char)) (o1 o2 : List Char)
    (hpre : ∀ l ∈ pre, inertLine l) (hpost : ∀ l ∈ post, inertLine l)
    (hopt : ∀ c ∈ o1 ++ o2, optChar c = true)
    (hdr : ¬ draftChars <:+: (o1 ++ o2)) :
    render_transform (render_transform
        (joinLines (pre ++ [inclLine o1 o2] ++ post))) =
      render_transform (joinLines (pre ++ [inclLine o1 o2] ++ post)) := by
  rw [render_transform_canonical pre post o1 o2 hpre hpost hopt hdr]
  have hmid : inertLine (replaceAllL (cleanLine (o1 ++ o2))) := by
    by_cases hne : o1 ++ o2 = []
    · rw [hne, cleanLine_nil, replaceAllL_patChars]
      exact ⟨by decide, by decide, by decide⟩
    · rw [replaceAllL_eq_of_no_pat _ (cleanLine_no_pat _ hne hopt)]
      exact ⟨cleanLine_no_draft _ hdr, cleanLine_no_pat _ hne hopt,
        cleanLine_no_newline _ hopt⟩
  apply render_transform_fixed
  · intro l hl
    simp only [List.mem_append, List.mem_singleton] at hl
    rcases hl with (hl | hl) | hl
    · exact hpre l hl
    · rw [hl]; exact hmid
    · exact hpost l hl
  · simp

/-- Witness for `render_transform_idempotent_on_canonical`: the standard
template document consisting of the single line `\usepackage[draft]{moodle}`
(empty option text around the marker). -/
theorem render_transform_idempotent_witness :
    render_transform (render_transform
        (joinLines ([] ++ [inclLine [] []] ++ []))) =
      render_transform (joinLines ([] ++ [inclLine [] []] ++ [])) := by
  exact render_transform_idempotent_on_canonical [] [] [] []
    (by simp) (by simp) (by simp) (by decide)

end Genmq
